import Mathlib

/-!
# Merkle inclusion proofs (merkle_light): shallow embedding and verification

This file embeds `src/merkle/src/proof.rs` in Lean 4 and proves properties of
the `Proof` data type: construction, accessors, the validation fold, and the
byte serialization contract.

Modelling conventions:
- A Rust panic (failed `assert!`, out-of-bounds `Vec` index, `unwrap()` of
  `None`) is modelled by the value `none` of an `Option` result; normal
  returns are `some`.
- The `Algorithm<T>` hashing trait (declared in the crate's `hash` module,
  not present under `src/`) is modelled from the spec as an explicit record
  of a combiner over an internal state type: a default (fresh) state, a
  `reset` clearing the state, and an order-sensitive `node` combining two
  hash values while possibly updating the state.
- Bytes are modelled as natural numbers in a `List Nat`.
-/

namespace MerkleLight

/-- Modelled from the spec: the external HashCombiner capability
(`Algorithm<T>` in the crate's `hash` module, which is not under `src/`).
`S` is the combiner's internal mutable state: `default` yields a fresh
instance, `reset` clears the state in place, and `node left right` combines
two hash values order-sensitively, threading the state. -/
structure Algorithm (S T : Type) where
  default : S
  reset : S → S
  node : S → T → T → T × S

/-- `Proof<T>`: an ordered lemma of hash values and an ordered path of
direction bits (from `src/merkle/src/proof.rs`). -/
structure Proof (T : Type) where
  «lemma» : List T
  path : List Bool

/-- `Proof::new(hash, path)`: asserts `hash.len() > 2` and then
`hash.len() - 2 == path.len()`; a failed assertion is a panic (`none`). -/
def Proof.new {T : Type} (l : List T) (pth : List Bool) : Option (Proof T) :=
  if 2 < l.length then
    if l.length - 2 = pth.length then some ⟨l, pth⟩ else none
  else none

/-- `Proof::item()`: `self.lemma.first().unwrap().clone()`; `none` models the
panic of `unwrap` on an empty lemma. -/
def Proof.item {T : Type} (p : Proof T) : Option T :=
  p.«lemma».head?

/-- `Proof::root()`: `self.lemma.last().unwrap().clone()`. -/
def Proof.root {T : Type} (p : Proof T) : Option T :=
  p.«lemma».getLast?

/-- The `for i in 1..size-1` loop of `Proof::validate`, over the explicit
list of visited indices. Each iteration resets the combiner, reads the
direction bit `path[i-1]` (an out-of-bounds index is a panic, `none`), reads
the sibling `lemma[i]`, and combines in the order the bit dictates. -/
def validateLoop {S T : Type} (A : Algorithm S T) (p : Proof T) :
    List Nat → T → S → Option (T × S)
  | [], h, s => some (h, s)
  | i :: is, h, s =>
    match p.path[i - 1]? with
    | none => none
    | some b =>
      match p.«lemma»[i]? with
      | none => none
      | some sib =>
        let hs := if b then A.node (A.reset s) h sib else A.node (A.reset s) sib h
        validateLoop A p is hs.1 hs.2

/-- `Proof::validate::<A>()`: returns `false` when `lemma.len() < 2`,
otherwise folds the lemma from `item()` over indices `1..size-1` and compares
the derived hash with `root()`. A `none` result models a panic inside the
loop (or in the accessors). -/
def Proof.validate {S T : Type} [DecidableEq T] (A : Algorithm S T) (p : Proof T) :
    Option Bool :=
  let size := p.«lemma».length
  if size < 2 then some false
  else
    match p.item with
    | none => none
    | some h0 =>
      match validateLoop A p (List.range' 1 (size - 2)) h0 A.default with
      | none => none
      | some hs =>
        match p.root with
        | none => none
        | some r => some (decide (hs.1 = r))

/-- The derived-root fold exactly as the specification words it: starting
from the leaf, combine the running hash with each sibling, the running hash
standing on the left when the direction bit is true and on the right when it
is false, the combiner being reset before each combination. -/
def specDerive {S T : Type} (A : Algorithm S T) : T × S → List (T × Bool) → T × S
  | hs, [] => hs
  | hs, (sib, b) :: rest =>
    specDerive A (if b then A.node (A.reset hs.2) hs.1 sib
                  else A.node (A.reset hs.2) sib hs.1) rest

/-- A concrete combiner instance used by closed witnesses: stateless, with an
injective-enough pairing on naturals. -/
def natAlg : Algorithm Unit Nat :=
  ⟨(), fun s => s, fun s a b => (2 ^ a * 3 ^ b, s)⟩

/-! ## Byte serialization

`Proof<T>` derives `Encode`/`Decode` from the external `parity_codec` crate;
the codec implementation is not part of this repository's sources, so it is
modelled from the spec: each sequence is encoded as a count followed by its
elements, each element of `H` by its own defined byte representation, each
bool as one byte. Decoding reads a prefix of the byte stream and ignores any
trailing bytes, exactly as `Decode::decode(&mut &bytes[..])` does. The count
is encoded here as a digit-count byte followed by base-256 little-endian
digits. -/

/-- Modelled from the spec: encoding of a sequence length (a count). -/
def encodeLen (n : Nat) : List Nat :=
  (Nat.digits 256 n).length :: Nat.digits 256 n

/-- Modelled from the spec: decoding of a sequence length; fails on an empty
stream or when fewer bytes remain than the digit count announces. -/
def decodeLen : List Nat → Option (Nat × List Nat)
  | [] => none
  | k :: rest =>
    if k ≤ rest.length then some (Nat.ofDigits 256 (rest.take k), rest.drop k)
    else none

/-- Modelled from the spec: a bool encodes to one byte, `1` for true and `0`
for false. -/
def encodeBool (b : Bool) : List Nat :=
  [if b then 1 else 0]

/-- Modelled from the spec: a bool decodes from one byte; any byte other
than `0` or `1` is a decode error. -/
def decodeBool : List Nat → Option (Bool × List Nat)
  | 0 :: rest => some (false, rest)
  | 1 :: rest => some (true, rest)
  | _ => none

/-- Modelled from the spec: a sequence encodes as its count followed by the
encodings of its elements, `encT` being the element encoder. -/
def encodeVec {T : Type} (encT : T → List Nat) (v : List T) : List Nat :=
  encodeLen v.length ++ v.flatMap encT

/-- Decoding of exactly `n` consecutive elements with the element decoder
`decT`, returning the elements and the unread rest of the stream. -/
def decodeElems {T : Type} (decT : List Nat → Option (T × List Nat)) :
    Nat → List Nat → Option (List T × List Nat)
  | 0, rest => some ([], rest)
  | n + 1, rest =>
    match decT rest with
    | none => none
    | some (x, rest') =>
      match decodeElems decT n rest' with
      | none => none
      | some (xs, rest'') => some (x :: xs, rest'')

/-- Modelled from the spec: a sequence decodes as a count followed by that
many elements. -/
def decodeVec {T : Type} (decT : List Nat → Option (T × List Nat))
    (bytes : List Nat) : Option (List T × List Nat) :=
  match decodeLen bytes with
  | none => none
  | some (n, rest) => decodeElems decT n rest

/-- `Proof::into_bytes()`: the derived `Encode` writes the `lemma` field then
the `path` field, each as a count-prefixed sequence. -/
def Proof.into_bytes {T : Type} (encT : T → List Nat) (p : Proof T) : List Nat :=
  encodeVec encT p.«lemma» ++ encodeVec encodeBool p.path

/-- `Proof::from_bytes(bytes)`: the derived `Decode` reads the `lemma` field
then the `path` field from a prefix of the stream, ignoring trailing bytes;
any decode failure is a recoverable error (`none` here stands for
`Err(())`, not for a panic). -/
def Proof.from_bytes {T : Type} (decT : List Nat → Option (T × List Nat))
    (bytes : List Nat) : Option (Proof T) :=
  match decodeVec decT bytes with
  | none => none
  | some (l, rest) =>
    match decodeVec decodeBool rest with
    | none => none
    | some (pth, _) => some ⟨l, pth⟩

/-- The one-byte element encoder used to instantiate the serialization
theorems concretely (the `u8` instantiation of `H`). -/
def encByte (x : Nat) : List Nat := [x]

/-- The one-byte element decoder matching `encByte`. -/
def decByte : List Nat → Option (Nat × List Nat)
  | [] => none
  | x :: rest => some (x, rest)

/-! ## Theorems -/

/-- Unrolling `validateLoop` over a contiguous index range into the
specification fold, when every lemma and path read is in bounds. -/
theorem validateLoop_range' {S T : Type} (A : Algorithm S T) (p : Proof T) :
    ∀ (n j : Nat) (h : T) (s : S), 1 ≤ j → j + n ≤ p.«lemma».length →
      j + n ≤ p.path.length + 1 →
      validateLoop A p (List.range' j n) h s =
        some (specDerive A (h, s)
          (((p.«lemma».drop j).take n).zip ((p.path.drop (j - 1)).take n))) := by
  intro n
  induction n with
  | zero =>
    intro j h s _ _ _
    simp [validateLoop, specDerive]
  | succ n ih =>
    intro j h s hj hl hp
    have hjl : j < p.«lemma».length := by omega
    have hjp : j - 1 < p.path.length := by omega
    have hj1 : j - 1 + 1 = j := by omega
    have hstep := ih (j + 1)
    rw [List.range'_succ j n 1]
    simp only [validateLoop, List.getElem?_eq_getElem hjp, List.getElem?_eq_getElem hjl]
    rw [List.drop_eq_getElem_cons hjl, List.drop_eq_getElem_cons hjp, hj1,
      List.take_succ_cons, List.take_succ_cons, List.zip_cons_cons]
    simp only [specDerive]
    cases hb : p.path[j - 1] <;> simp only [Bool.false_eq_true, if_true, if_false] <;>
      rw [hstep _ _ (by omega) (by omega) (by omega)] <;>
      simp [Nat.add_sub_cancel]

/-- When the index range starts inside the path but runs past its end, the
loop reaches the first out-of-range path index and panics. -/
theorem validateLoop_none_of_short_path {S T : Type} (A : Algorithm S T) (p : Proof T) :
    ∀ (n j : Nat) (h : T) (s : S), 1 ≤ j → j + n ≤ p.«lemma».length →
      j - 1 ≤ p.path.length → p.path.length < j + n - 1 →
      validateLoop A p (List.range' j n) h s = none := by
  intro n
  induction n with
  | zero => intro j h s hj hl hp1 hp2; omega
  | succ n ih =>
    intro j h s hj hl hp1 hp2
    rw [List.range'_succ j n 1]
    rcases Nat.lt_or_ge (j - 1) p.path.length with hin | hout
    · have hjl : j < p.«lemma».length := by omega
      simp only [validateLoop, List.getElem?_eq_getElem hin, List.getElem?_eq_getElem hjl]
      cases hb : p.path[j - 1] <;> simp only [Bool.false_eq_true, if_true, if_false] <;>
        exact ih (j + 1) _ _ (by omega) (by omega) (by omega) (by omega)
    · have hnone : p.path[j - 1]? = none := List.getElem?_eq_none_iff.mpr (by omega)
      simp only [validateLoop, hnone]

/-- C3: construction via `new(lemma, path)` fails fatally (panics) if and
only if `lemma.len() <= 2` or `path.len() != lemma.len() - 2`; when both
length conditions hold it returns a proof object owning exactly the given
lemma and path sequences. -/
theorem new_panics_iff_bad_lengths {T : Type} (l : List T) (pth : List Bool) :
    (Proof.new l pth = none ↔ (l.length ≤ 2 ∨ pth.length ≠ l.length - 2)) ∧
    (Proof.new l pth = some ⟨l, pth⟩ ↔ (2 < l.length ∧ pth.length = l.length - 2)) := by
  unfold Proof.new
  split_ifs with h1 h2 <;> constructor <;> simp <;> omega

/-- C6: a proof whose lemma has length strictly below 2 validates to `false`
without panicking, whatever the combiner (in particular the combiner is never
consulted) and whatever the path. -/
theorem validate_short_lemma_false {S T : Type} [DecidableEq T] (A : Algorithm S T)
    (p : Proof T) (h : p.«lemma».length < 2) : p.validate A = some false := by
  unfold Proof.validate
  simp [h]

/-- Witness for C6: a hand-built one-entry proof validates to `false`. -/
theorem validate_short_lemma_false_witness :
    Proof.validate natAlg ⟨[5], [true]⟩ = some false :=
  validate_short_lemma_false natAlg ⟨[5], [true]⟩ (by decide)

/-- C9: on a proof whose lemma is empty, the accessors `item()` and `root()`
panic (`unwrap` of an absent first/last element), modelled as `none`. -/
theorem item_root_empty_panic {T : Type} (p : Proof T) (h : p.«lemma» = []) :
    p.item = none ∧ p.root = none := by
  simp [Proof.item, Proof.root, h]

/-- Witness for C9: the concrete empty-lemma proof object. -/
theorem item_root_empty_panic_witness :
    (Proof.mk ([] : List Nat) []).item = none ∧
    (Proof.mk ([] : List Nat) []).root = none :=
  item_root_empty_panic ⟨[], []⟩ rfl

/-- C7: `into_bytes` is deterministic: two evaluations on the same proof
value yield the same bytes, and equal proof values encode to equal bytes. -/
theorem into_bytes_deterministic {T : Type} (encT : T → List Nat) (p q : Proof T)
    (h : p = q) :
    p.into_bytes encT = p.into_bytes encT ∧ p.into_bytes encT = q.into_bytes encT :=
  ⟨rfl, by rw [h]⟩

/-- Witness for C7 at a concrete proof value. -/
theorem into_bytes_deterministic_witness :
    Proof.into_bytes encByte ⟨[3, 7, 9], [true]⟩ = Proof.into_bytes encByte ⟨[3, 7, 9], [true]⟩ ∧
    Proof.into_bytes encByte ⟨[3, 7, 9], [true]⟩ = Proof.into_bytes encByte ⟨[3, 7, 9], [true]⟩ :=
  into_bytes_deterministic encByte ⟨[3, 7, 9], [true]⟩ ⟨[3, 7, 9], [true]⟩ rfl

/-- C8: `from_bytes` does not re-check the construction invariants: the byte
sequence `[0, 0]` decodes successfully to a proof with an empty lemma, whose
length violates `lemma.len() > 2`. -/
theorem from_bytes_skips_invariants :
    Proof.from_bytes decByte [0, 0] = some ⟨[], []⟩ ∧
    (Proof.mk ([] : List Nat) []).«lemma».length ≤ 2 :=
  ⟨rfl, by decide⟩

/-- C1: on a proof whose lemma has length `N ≥ 3` and whose path has length
`N - 2`, `validate` returns, without panicking, exactly the comparison of the
claimed root `lemma[N-1]` with the value derived from `lemma[0]` by folding
the siblings `lemma[1..N-2]` with the path's direction bits — running hash on
the left when the bit is true, on the right when it is false, the combiner
reset before each combination. -/
theorem validate_eq_specDerive {S T : Type} [DecidableEq T] (A : Algorithm S T)
    (p : Proof T) (leaf rt : T)
    (hN : 3 ≤ p.«lemma».length) (hP : p.path.length = p.«lemma».length - 2)
    (hleaf : p.«lemma».head? = some leaf) (hroot : p.«lemma».getLast? = some rt) :
    p.validate A = some (decide ((specDerive A (leaf, A.default)
      (((p.«lemma».drop 1).take (p.«lemma».length - 2)).zip p.path)).1 = rt)) := by
  have hsize : ¬ p.«lemma».length < 2 := by omega
  have hloop := validateLoop_range' A p (p.«lemma».length - 2) 1 leaf A.default
    (by omega) (by omega) (by omega)
  have hpath : (p.path.drop (1 - 1)).take (p.«lemma».length - 2) = p.path := by
    rw [List.drop_zero, ← hP, List.take_length]
  rw [hpath] at hloop
  simp only [Proof.validate, Proof.item, Proof.root, hsize, if_false, hleaf, hloop, hroot]

/-- Witness for C1: a concrete three-level proof that validates to `true`
against the concrete combiner. -/
theorem validate_eq_specDerive_witness :
    Proof.validate natAlg ⟨[1, 2, 3, 3099363912], [true, false]⟩ = some true := by
  have h := validate_eq_specDerive natAlg ⟨[1, 2, 3, 3099363912], [true, false]⟩ 1 3099363912
    (by decide) rfl rfl rfl
  rw [h]
  rfl

/-- Counterexample to C2 as stated: a structurally possible proof value
(three lemma entries, empty path — obtainable from `from_bytes`) on which
`validate` panics with an out-of-bounds path index (`none`) instead of
returning a boolean. -/
theorem validate_panics_on_short_path :
    Proof.validate natAlg ⟨[0, 1, 2], []⟩ = none := rfl

/-- C2 (amended): `validate` terminates without panicking and returns a
boolean exactly when `lemma.len() - 2 ≤ path.len()` (in particular for every
proof produced by `new` and for every proof with fewer than three lemma
entries); when `lemma.len() ≥ 3` and the path is shorter than
`lemma.len() - 2`, it panics on an out-of-bounds path index. -/
theorem validate_isSome_iff {S T : Type} [DecidableEq T] (A : Algorithm S T)
    (p : Proof T) :
    (p.validate A).isSome ↔ p.«lemma».length - 2 ≤ p.path.length := by
  by_cases hsize : p.«lemma».length < 2
  · simp only [Proof.validate, hsize, if_true, Option.isSome_some, true_iff]
    omega
  · have hne : p.«lemma» ≠ [] := by
      intro h
      rw [h] at hsize
      simp at hsize
    obtain ⟨leaf, hleaf⟩ := Option.isSome_iff_exists.mp (List.head?_isSome.mpr hne)
    obtain ⟨rt, hroot⟩ := Option.isSome_iff_exists.mp (List.getLast?_isSome.mpr hne)
    rcases le_or_lt (p.«lemma».length - 2) p.path.length with hok | hshort
    · have hloop := validateLoop_range' A p (p.«lemma».length - 2) 1 leaf A.default
        (by omega) (by omega) (by omega)
      simp only [Proof.validate, Proof.item, Proof.root, hsize, if_false, hleaf, hloop,
        hroot, Option.isSome_some, true_iff]
      exact hok
    · have hloop := validateLoop_none_of_short_path A p (p.«lemma».length - 2) 1 leaf A.default
        (by omega) (by omega) (by omega) (by omega)
      simp only [Proof.validate, Proof.item, Proof.root, hsize, if_false, hleaf, hloop,
        Option.isSome_none, Bool.false_eq_true, false_iff]
      omega

/-- The loop's behaviour depends on the path only through the reads
`path[i-1]` at the visited indices. -/
theorem validateLoop_congr_path {S T : Type} (A : Algorithm S T) (p q : Proof T)
    (hl : p.«lemma» = q.«lemma») :
    ∀ (is : List Nat) (h : T) (s : S),
      (∀ i ∈ is, p.path[i - 1]? = q.path[i - 1]?) →
      validateLoop A p is h s = validateLoop A q is h s := by
  intro is
  induction is with
  | nil => intro h s _; rfl
  | cons i is ih =>
    intro h s hagree
    simp only [validateLoop, hl, hagree i (List.mem_cons_self i is)]
    cases q.path[i - 1]? with
    | none => rfl
    | some b =>
      cases q.«lemma»[i]? with
      | none => rfl
      | some sib =>
        exact ih _ _ (fun x hx => hagree x (List.mem_cons_of_mem i hx))

/-- C10: `validate` reads only the path entries at indices `0` through
`lemma.len() - 3`: two proofs with equal lemmas whose paths agree at those
indices (one may carry extra trailing path bits) validate identically. -/
theorem validate_reads_path_prefix {S T : Type} [DecidableEq T] (A : Algorithm S T)
    (p q : Proof T) (hl : p.«lemma» = q.«lemma»)
    (hp : ∀ j, j < p.«lemma».length - 2 → p.path[j]? = q.path[j]?) :
    p.validate A = q.validate A := by
  have hloop : ∀ (h : T) (s : S),
      validateLoop A p (List.range' 1 (p.«lemma».length - 2)) h s =
      validateLoop A q (List.range' 1 (p.«lemma».length - 2)) h s := by
    intro h s
    refine validateLoop_congr_path A p q hl _ h s ?_
    intro i hi
    have := List.mem_range'_1.mp hi
    exact hp (i - 1) (by omega)
  simp only [Proof.validate, Proof.item, Proof.root, hl] at hloop ⊢
  rw [← hl] at hloop ⊢
  simp only [hloop]

/-- Witness for C10: an extra trailing path bit beyond `lemma.len() - 2`
does not change the validation verdict. -/
theorem validate_reads_path_prefix_witness :
    Proof.validate natAlg ⟨[1, 2, 3, 4], [true, false]⟩ =
    Proof.validate natAlg ⟨[1, 2, 3, 4], [true, false, true]⟩ :=
  validate_reads_path_prefix natAlg ⟨[1, 2, 3, 4], [true, false]⟩
    ⟨[1, 2, 3, 4], [true, false, true]⟩ rfl (by decide)

/-- Decoding a count consumes exactly its encoding. -/
theorem decodeLen_encodeLen (n : Nat) (rest : List Nat) :
    decodeLen (encodeLen n ++ rest) = some (n, rest) := by
  simp only [encodeLen, List.cons_append, decodeLen]
  rw [if_pos (by simp), List.take_left, List.drop_left, Nat.ofDigits_digits]

/-- Decoding `v.length` elements consumes exactly the encodings of `v`, for
any element decoder inverting the element encoder. -/
theorem decodeElems_encodings {T : Type} (encT : T → List Nat)
    (decT : List Nat → Option (T × List Nat))
    (hT : ∀ x rest, decT (encT x ++ rest) = some (x, rest)) :
    ∀ (v : List T) (rest : List Nat),
      decodeElems decT v.length (v.flatMap encT ++ rest) = some (v, rest) := by
  intro v
  induction v with
  | nil => intro rest; rfl
  | cons x xs ih =>
    intro rest
    simp only [List.flatMap_cons, List.length_cons, List.append_assoc, decodeElems, hT, ih]

/-- Decoding a sequence consumes exactly its encoding. -/
theorem decodeVec_encodeVec {T : Type} (encT : T → List Nat)
    (decT : List Nat → Option (T × List Nat))
    (hT : ∀ x rest, decT (encT x ++ rest) = some (x, rest))
    (v : List T) (rest : List Nat) :
    decodeVec decT (encodeVec encT v ++ rest) = some (v, rest) := by
  simp only [encodeVec, List.append_assoc, decodeVec, decodeLen_encodeLen]
  exact decodeElems_encodings encT decT hT v rest

/-- Decoding a bool consumes exactly its one-byte encoding. -/
theorem decodeBool_encodeBool (b : Bool) (rest : List Nat) :
    decodeBool (encodeBool b ++ rest) = some (b, rest) := by
  cases b <;> rfl

/-- C4: for every proof satisfying the construction invariants
(`lemma.len() > 2` and `path.len() == lemma.len() - 2`), decoding its
encoding succeeds and yields an equal proof, whenever the element decoder
inverts the element encoder. -/
theorem from_bytes_into_bytes {T : Type} (encT : T → List Nat)
    (decT : List Nat → Option (T × List Nat))
    (hT : ∀ x rest, decT (encT x ++ rest) = some (x, rest))
    (p : Proof T) (_h1 : 2 < p.«lemma».length)
    (_h2 : p.path.length = p.«lemma».length - 2) :
    Proof.from_bytes decT (p.into_bytes encT) = some p := by
  have hbools : decodeVec decodeBool (encodeVec encodeBool p.path) = some (p.path, []) := by
    rw [← List.append_nil (encodeVec encodeBool p.path)]
    exact decodeVec_encodeVec encodeBool decodeBool decodeBool_encodeBool p.path []
  simp only [Proof.into_bytes, Proof.from_bytes,
    decodeVec_encodeVec encT decT hT p.«lemma» (encodeVec encodeBool p.path), hbools]

/-- Witness for C4: a concrete valid proof round-trips through the bytes
with the one-byte element codec. -/
theorem from_bytes_into_bytes_witness :
    Proof.from_bytes decByte (Proof.into_bytes encByte ⟨[1, 2, 3], [true]⟩) =
      some ⟨[1, 2, 3], [true]⟩ :=
  from_bytes_into_bytes encByte decByte (fun _ _ => rfl) ⟨[1, 2, 3], [true]⟩
    (by decide) (by decide)

/-- Taking at most the left part of an append stays inside it. -/
theorem take_append_left_part {α : Type} (l1 l2 : List α) (k : Nat) (h : k ≤ l1.length) :
    (l1 ++ l2).take k = l1.take k := by
  rw [List.take_append_eq_append_take, Nat.sub_eq_zero_of_le h, List.take_zero,
    List.append_nil]

/-- Taking past the left part of an append keeps it whole. -/
theorem take_append_right_part {α : Type} (l1 l2 : List α) (k : Nat) (h : l1.length ≤ k) :
    (l1 ++ l2).take k = l1 ++ l2.take (k - l1.length) := by
  rw [List.take_append_eq_append_take, List.take_of_length_le h]

/-- The one-byte element encodings form the identity byte stream. -/
theorem flatMap_encByte (l : List Nat) : l.flatMap encByte = l := by
  induction l with
  | nil => rfl
  | cons x xs ih => simp [encByte, ih]

/-- Bool encodings form a one-byte-per-bool stream. -/
theorem flatMap_encodeBool (bs : List Bool) :
    bs.flatMap encodeBool = bs.map (fun b => if b then 1 else 0) := by
  induction bs with
  | nil => rfl
  | cons b bs ih => simp [encodeBool, ih]

/-- A strict prefix of a count encoding fails to decode: the digit count
announces more bytes than remain. -/
theorem decodeLen_take_none (n k : Nat) (hk : k < (encodeLen n).length) :
    decodeLen ((encodeLen n).take k) = none := by
  cases k with
  | zero => rfl
  | succ j =>
    simp only [encodeLen, List.length_cons] at hk
    simp only [encodeLen, List.take_succ_cons, decodeLen]
    rw [if_neg]
    simp only [List.length_take]
    omega

/-- The one-byte decoder cannot produce more elements than there are bytes. -/
theorem decodeElems_decByte_short :
    ∀ (bs : List Nat) (n : Nat), bs.length < n → decodeElems decByte n bs = none := by
  intro bs
  induction bs with
  | nil =>
    intro n hn
    cases n with
    | zero => omega
    | succ m => rfl
  | cons b bs ih =>
    intro n hn
    cases n with
    | zero => omega
    | succ m =>
      simp only [List.length_cons] at hn
      simp only [decodeElems, decByte, ih m (by omega)]

/-- The bool decoder cannot produce more bools than there are bool bytes. -/
theorem decodeElems_decodeBool_short :
    ∀ (bs : List Bool) (n : Nat), bs.length < n →
      decodeElems decodeBool n (bs.map (fun b => if b then 1 else 0)) = none := by
  intro bs
  induction bs with
  | nil =>
    intro n hn
    cases n with
    | zero => omega
    | succ m => rfl
  | cons b bs ih =>
    intro n hn
    cases n with
    | zero => omega
    | succ m =>
      simp only [List.length_cons] at hn
      cases b <;> simp [decodeElems, decodeBool, ih m (by omega)]

/-- C5: a byte sequence that does not match the binary grammar is rejected
with a decode error rather than a panic: decoding is a total function into a
result, and every truncation — any strict prefix of the encoding of any
proof, under the one-byte element codec — yields `none` (`Err(())`),
whether the cut falls in a length prefix, in the element bytes, or in the
bool bytes. -/
theorem from_bytes_truncated (p : Proof Nat) (k : Nat)
    (hk : k < (p.into_bytes encByte).length) :
    Proof.from_bytes decByte ((p.into_bytes encByte).take k) = none := by
  obtain ⟨l, pth⟩ := p
  have hfl : (Proof.mk l pth).into_bytes encByte =
      (encodeLen l.length ++ l) ++
        (encodeLen pth.length ++ pth.map (fun b => if b then 1 else 0)) := by
    simp [Proof.into_bytes, encodeVec, flatMap_encByte, flatMap_encodeBool]
  rw [hfl] at hk ⊢
  simp only [List.length_append, List.length_map] at hk
  rcases Nat.lt_or_ge k (encodeLen l.length).length with h1 | h1
  · -- cut inside the lemma count
    rw [take_append_left_part _ _ k (by simp [List.length_append]; omega),
      take_append_left_part _ _ k (by omega)]
    simp only [Proof.from_bytes, decodeVec, decodeLen_take_none l.length k h1]
  · rcases Nat.lt_or_ge (k - (encodeLen l.length).length) l.length with h2 | h2
    · -- cut inside the lemma elements
      rw [take_append_left_part _ _ k (by simp [List.length_append]; omega),
        take_append_right_part _ _ k h1]
      have e2 : decodeElems decByte l.length
          (l.take (k - (encodeLen l.length).length)) = none :=
        decodeElems_decByte_short _ _ (by rw [List.length_take]; omega)
      simp only [Proof.from_bytes, decodeVec, decodeLen_encodeLen, e2]
    · rcases Nat.lt_or_ge (k - (encodeLen l.length).length - l.length)
          (encodeLen pth.length).length with h3 | h3
      · -- cut inside the path count
        rw [take_append_right_part _ _ k (by simp [List.length_append]; omega),
          take_append_left_part _ _ _ (by simp [List.length_append]; omega)]
        have e2 : decodeElems decByte l.length
            (l ++ (encodeLen pth.length).take (k - (encodeLen l.length ++ l).length)) =
            some (l, (encodeLen pth.length).take (k - (encodeLen l.length ++ l).length)) := by
          have := decodeElems_encodings encByte decByte (fun _ _ => rfl) l
            ((encodeLen pth.length).take (k - (encodeLen l.length ++ l).length))
          rwa [flatMap_encByte] at this
        have e3 : decodeLen
            ((encodeLen pth.length).take (k - (encodeLen l.length ++ l).length)) = none :=
          decodeLen_take_none pth.length _ (by simp [List.length_append]; omega)
        simp only [Proof.from_bytes, decodeVec, List.append_assoc, decodeLen_encodeLen,
          e2, e3]
      · -- cut inside the bool bytes
        have hDsm : (pth.map (fun b => if b then 1 else 0)).take
              (k - (encodeLen l.length ++ l).length - (encodeLen pth.length).length) =
            (pth.take
              (k - (encodeLen l.length ++ l).length - (encodeLen pth.length).length)).map
              (fun b => if b then 1 else 0) :=
          (List.map_take _ _ _).symm
        rw [take_append_right_part _ _ k (by simp [List.length_append]; omega),
          take_append_right_part _ _ _ (by simp [List.length_append]; omega), hDsm]
        have e2 : decodeElems decByte l.length
            (l ++ (encodeLen pth.length ++ (pth.take
              (k - (encodeLen l.length ++ l).length - (encodeLen pth.length).length)).map
              (fun b => if b then 1 else 0))) =
            some (l, encodeLen pth.length ++ (pth.take
              (k - (encodeLen l.length ++ l).length - (encodeLen pth.length).length)).map
              (fun b => if b then 1 else 0)) := by
          have := decodeElems_encodings encByte decByte (fun _ _ => rfl) l
            (encodeLen pth.length ++ (pth.take
              (k - (encodeLen l.length ++ l).length - (encodeLen pth.length).length)).map
              (fun b => if b then 1 else 0))
          rwa [flatMap_encByte] at this
        have e3 : decodeElems decodeBool pth.length
            ((pth.take
              (k - (encodeLen l.length ++ l).length - (encodeLen pth.length).length)).map
              (fun b => if b then 1 else 0)) = none :=
          decodeElems_decodeBool_short _ _
            (by rw [List.length_take]; simp [List.length_append]; omega)
        simp only [Proof.from_bytes, decodeVec, List.append_assoc, decodeLen_encodeLen,
          e2, e3]

/-- Witness for C5: a concretely truncated encoding is rejected. -/
theorem from_bytes_truncated_witness :
    Proof.from_bytes decByte
      ((Proof.into_bytes encByte ⟨[1, 2, 3], [true]⟩).take 3) = none :=
  from_bytes_truncated ⟨[1, 2, 3], [true]⟩ 3 (by
    have h3 : Nat.digits 256 3 = [3] := by
      rw [Nat.digits_def' (b := 256) (by norm_num) (by norm_num)]
      norm_num
    have h1 : Nat.digits 256 1 = [1] := by
      rw [Nat.digits_def' (b := 256) (by norm_num) (by norm_num)]
      norm_num
    simp [Proof.into_bytes, encodeVec, flatMap_encByte, flatMap_encodeBool,
      encodeLen, encByte, encodeBool, h3, h1])

end MerkleLight
